import Mathlib

/-!
# Verification of the `neardup` near-duplicate matching core

Shallow embedding of `src/src/lib.rs` (crate `neardup`).

Modelling conventions:
* Rust `i32` tokens are modelled as `Int`; `v as u64` is the 2's-complement
  sign extension, i.e. `v mod 2^64`.
* Rust `u64` arithmetic is modelled as `Nat` with an explicit `% 2^64` at
  every operation that can exceed the word size (release-mode wrap-around
  semantics; in debug builds the same overflows panic instead).
* Rust `usize` subtractions and slice accesses panic when out of range; a
  function that can panic is modelled with an `Option` result, `none`
  standing for the arithmetic/bounds fault.
* `f64` similarity scores are modelled as exact rationals `ℚ` (the scores
  the code manipulates are quotients of small integer counts).
* `fxhash::hash` is an external deterministic hash over the slice contents;
  it is modelled as an arbitrary function parameter `hashFn : List Int → Nat`
  applied to the window contents.  `FxHashSet` is modelled as `Finset Nat`.
-/

namespace Neardup

/-! ## u64 arithmetic (wrap-around model) -/

/-- Word size of `u64`. -/
def U64 : Nat := 2 ^ 64

/-- Rust `u64` multiplication, wrapping on overflow. -/
def u64mul (a b : Nat) : Nat := (a * b) % U64

/-- Rust `u64` addition, wrapping on overflow. -/
def u64add (a b : Nat) : Nat := (a + b) % U64

/-- Rust `u64` subtraction, wrapping on underflow (arguments are `< 2^64`). -/
def u64sub (a b : Nat) : Nat := (a + U64 - b) % U64

/-- The cast `v as u64` for an `i32` value `v`: two's-complement sign extension. -/
def toU64 (v : Int) : Nat := (v % (2 ^ 64 : Int)).toNat

/-! ## RollingHash (lib.rs lines 44-113) -/

/-- The mutable accumulator struct of lib.rs lines 44-50. -/
structure RollingHash where
  base : Nat
  modulo : Nat
  hash : Nat
  base_power : Nat
  window_size : Nat
  deriving DecidableEq

/-- Constructor `RollingHash::new()`, lib.rs lines 53-61. -/
def RollingHash.new : RollingHash :=
  { base := 31, modulo := 1000000007, hash := 0, base_power := 1, window_size := 0 }

/-- Method `RollingHash::append`, lib.rs lines 73-81:
`hash = (hash * base + char) % modulo; window_size += 1;
 base_power = if window_size == 1 then 1 else (base_power * base) % modulo`. -/
def RollingHash.append (r : RollingHash) (c : Nat) : RollingHash :=
  { r with
    hash := (u64add (u64mul r.hash r.base) c) % r.modulo
    window_size := r.window_size + 1
    base_power :=
      if r.window_size + 1 = 1 then 1 else (u64mul r.base_power r.base) % r.modulo }

/-- Method `RollingHash::slide`, lib.rs lines 94-98:
`hash = ((hash + modulo) - (old_char * base_power) % modulo) % modulo;
 hash = (hash * base + new_char) % modulo`. -/
def RollingHash.slide (r : RollingHash) (old_char new_char : Nat) : RollingHash :=
  let h1 := (u64sub (u64add r.hash r.modulo) ((u64mul old_char r.base_power) % r.modulo)) % r.modulo
  { r with hash := (u64add (u64mul h1 r.base) new_char) % r.modulo }

/-- Method `RollingHash::get_hash`, lib.rs lines 110-112. -/
def RollingHash.get_hash (r : RollingHash) : Nat := r.hash

/-- Priming a fresh accumulator by successive `append` calls
(the `for c in text { rolling_hash.append(c) }` idiom of the doc examples). -/
def primeAppends (l : List Nat) : RollingHash :=
  l.foldl (fun r c => r.append c) RollingHash.new

/-! ## Frequency vectors and weighted Jaccard (lib.rs lines 115-142) -/

/-- Function `create_frequency_vector`, lib.rs lines 115-121: a `HashMap` from each
distinct token of the span to its occurrence count.  Modelled as an
association list keyed by the distinct tokens (`dedup`). -/
def create_frequency_vector (l : List Int) : List (Int × Nat) :=
  l.dedup.map (fun t => (t, l.count t))

/-- Lookup `HashMap::get` on a frequency vector. -/
def mapGet (m : List (Int × Nat)) (t : Int) : Option Nat :=
  (m.find? (fun p => p.1 == t)).map Prod.snd

/-- The `for (element, frequency1) in &x { if let Some(frequency2) = y.get(element)
{ intersection_frequency += frequency1.min(frequency2) } }` loop of
`weighted_jaccard` (lib.rs lines 127-132). -/
def intersection_frequency (x y : List (Int × Nat)) : Nat :=
  (x.map (fun p =>
    match mapGet y p.1 with
    | some frequency2 => min p.2 frequency2
    | none => 0)).sum

/-- The sum `x.values().sum()` (lib.rs lines 134-135). -/
def sumFrequencies (m : List (Int × Nat)) : Nat := (m.map Prod.snd).sum

/-- Function `weighted_jaccard`, lib.rs lines 124-142.  The `f64` quotient is modelled
as an exact rational. -/
def weighted_jaccard (text1 text2 : List Int) : ℚ :=
  let x := create_frequency_vector text1
  let y := create_frequency_vector text2
  let inter := intersection_frequency x y
  let sum_x := sumFrequencies x
  let sum_y := sumFrequencies y
  let union := sum_x + sum_y - inter
  if 0 < union then (inter : ℚ) / (union : ℚ) else 0

/-! ## Windows and n-gram fingerprint sets (lib.rs lines 154-187) -/

/-- The Rust slice `&l[s..s+len]` (contents only; bounds are checked at the
use sites, as Rust panics there). -/
def window (l : List Int) (s len : Nat) : List Int := (l.drop s).take len

/-- Function `ngram`, lib.rs lines 154-160: `for i in 0..text.len() - n + 1 { insert
(fxhash::hash(&text[i..i+n])) }`.  The `usize` expression `text.len() - n + 1`
underflows when `n > text.len()` (panic, modelled as `none`); otherwise it
equals `text.len() - n + 1`. -/
def ngram (hashFn : List Int → Nat) (text : List Int) (n : Nat) : Option (Finset Nat) :=
  if n ≤ text.length then
    some ((List.range (text.length - n + 1)).map (fun i => hashFn (window text i n))).toFinset
  else none

/-- The hash that `ngram_rolling` computes for one window: a fresh
`RollingHash` primed with the window's symbols (lib.rs lines 180-184). -/
def rollingWindowHash (w : List Int) : Nat :=
  (primeAppends (w.map toU64)).get_hash

/-- Function `ngram_rolling`, lib.rs lines 176-187: same loop bound (and the same
underflow fault) as `ngram`, with a fresh rolling hash per window. -/
def ngram_rolling (text : List Int) (n : Nat) : Option (Finset Nat) :=
  if n ≤ text.length then
    some ((List.range (text.length - n + 1)).map
      (fun i => rollingWindowHash (window text i n))).toFinset
  else none

/-! ## Scanners (lib.rs lines 281-366) -/

/-- The shared verification loop body: `for s in inner..(start+1) { let end =
s + query.len(); if weighted_jaccard(&query, &doc[s..end]) >= threshold
{ return true } }` — also literally the loop body of
`has_doc_duplicate_naive`.  The slice `&doc[s..end]` panics (`none`) when
`end > doc.len()`. -/
def verifyRange (doc query : List Int) (threshold : ℚ) : List Nat → Option Bool
  | [] => some false
  | j :: rest =>
    if j + query.length ≤ doc.length then
      if threshold ≤ weighted_jaccard query (window doc j query.length) then some true
      else verifyRange doc query threshold rest
    else none

/-- The expression `max(0, start as i32 - query.len() as i32 + n as i32) as usize`
(lib.rs lines 293 and 354), computed in signed arithmetic. -/
def inner_start (start qlen n : Nat) : Nat :=
  (max 0 ((start : Int) - (qlen : Int) + (n : Int))).toNat

/-- The inner verification offsets `inner_start..(start + 1)`. -/
def innerOffsets (start qlen n : Nat) : List Nat :=
  List.range' (inner_start start qlen n) (start + 1 - inner_start start qlen n)

/-- The loop of `has_doc_duplicate` (lib.rs lines 288-301) over the remaining
start positions.  At each position the slice `&doc[start..start+n]` is
hashed and looked up; on a hit the verification range is scanned. -/
def outerLoopD (hashFn : List Int → Nat) (doc query : List Int) (gs : Finset Nat)
    (threshold : ℚ) (n : Nat) : List Nat → Option Bool
  | [] => some false
  | start :: rest =>
    if start + n ≤ doc.length then
      if hashFn (window doc start n) ∈ gs then
        match verifyRange doc query threshold (innerOffsets start query.length n) with
        | some true => some true
        | some false => outerLoopD hashFn doc query gs threshold n rest
        | none => none
      else outerLoopD hashFn doc query gs threshold n rest
    else none

/-- Function `has_doc_duplicate`, lib.rs lines 281-303.  `for start in
0..doc.len() - query.len()`: the unsigned subtraction faults when
`query.len() > doc.len()` (debug panic; in release the wrapped bound drives
the loop into an out-of-range slice panic) — modelled as `none`. -/
def has_doc_duplicate (hashFn : List Int → Nat) (doc query : List Int)
    (query_ngram : Finset Nat) (threshold : ℚ) (n : Nat) : Option Bool :=
  if query.length ≤ doc.length then
    outerLoopD hashFn doc query query_ngram threshold n
      (List.range (doc.length - query.length))
  else none

/-- Function `has_doc_duplicate_naive`, lib.rs lines 314-322: scores the windows at
`start in 0..doc.len() - query.len()`; the same unsigned subtraction fault
when `query.len() > doc.len()`. -/
def has_doc_duplicate_naive (doc query : List Int) (threshold : ℚ) : Option Bool :=
  if query.length ≤ doc.length then
    verifyRange doc query threshold (List.range (doc.length - query.length))
  else none

/-- The loop of `has_doc_duplicate_rolling` (lib.rs lines 347-364).  The
accumulator hash is tested against the fingerprint set; on a miss, and after
an unsuccessful verification, the window is slid using `doc[start]` and
`doc[start + n]` (an index panic, `none`, when `start + n ≥ doc.len()`). -/
def rollLoop (doc query : List Int) (gs : Finset Nat) (threshold : ℚ) (n : Nat) :
    RollingHash → List Nat → Option Bool
  | _, [] => some false
  | r, start :: rest =>
    if r.get_hash ∈ gs then
      match verifyRange doc query threshold (innerOffsets start query.length n) with
      | some true => some true
      | some false =>
        if start + n < doc.length then
          rollLoop doc query gs threshold n
            (r.slide (toU64 (doc.getD start 0)) (toU64 (doc.getD (start + n) 0))) rest
        else none
      | none => none
    else
      if start + n < doc.length then
        rollLoop doc query gs threshold n
          (r.slide (toU64 (doc.getD start 0)) (toU64 (doc.getD (start + n) 0))) rest
      else none

/-- Function `has_doc_duplicate_rolling`, lib.rs lines 336-366.  It first primes the
accumulator from `doc[..n]` (a slice panic, `none`, when `n > doc.len()`)
and then runs the loop over `0..doc.len() - query.len()` (the same unsigned
subtraction fault as the other scanners when `query.len() > doc.len()`). -/
def has_doc_duplicate_rolling (doc query : List Int) (query_ngram : Finset Nat)
    (threshold : ℚ) (n : Nat) : Option Bool :=
  if n ≤ doc.length then
    if query.length ≤ doc.length then
      rollLoop doc query query_ngram threshold n
        (primeAppends ((window doc 0 n).map toU64))
        (List.range (doc.length - query.length))
    else none
  else none

/-! ## Derived definitions used by the verification -/

/-- The prime modulus of `RollingHash::new`. -/
def modP : Nat := 1000000007

/-- Horner evaluation of the window polynomial, reduced mod `modP` at each
step, starting from accumulator `h` (the mathematical content of repeated
`append` calls when no `u64` overflow occurs). -/
def polyHFrom (h : Nat) (l : List Nat) : Nat :=
  l.foldl (fun h c => (h * 31 + c) % modP) h

/-- Window polynomial hash from a zeroed accumulator. -/
def polyH (l : List Nat) : Nat := polyHFrom 0 l

/-- A call in an arbitrary `append`/`slide` call sequence. -/
inductive RollOp where
  | appendOp (c : Nat) : RollOp
  | slideOp (a b : Nat) : RollOp

/-- Apply one accumulator call. -/
def applyRollOp (r : RollingHash) : RollOp → RollingHash
  | .appendOp c => r.append c
  | .slideOp a b => r.slide a b

/-- The intersection weight in mathematical form: a `Finset` sum over the
distinct tokens of both spans. -/
def interW (a b : List Int) : Nat :=
  ∑ t ∈ a.toFinset ∪ b.toFinset, min (a.count t) (b.count t)

/-- The spec's §4.3 intersection weight, stated in its own words: the sum,
over the tokens present in either span, of the minimum of the two occurrence
counts. -/
def intersection_weight_spec (a b : List Int) : Nat :=
  ((a ++ b).dedup.map (fun t => min (a.count t) (b.count t))).sum

/-- The spec's §4.3 similarity: `intersection / union` with
`union = len(A) + len(B) − intersection`, and `0.0` when the union weight is
zero. -/
def weighted_jaccard_spec (a b : List Int) : ℚ :=
  if a.length + b.length - intersection_weight_spec a b = 0 then 0
  else (intersection_weight_spec a b : ℚ) /
    ((a.length + b.length - intersection_weight_spec a b : Nat) : ℚ)

/-- Boolean pass test for the window at offset `j`. -/
def passAt (doc query : List Int) (threshold : ℚ) (j : Nat) : Bool :=
  decide (threshold ≤ weighted_jaccard query (window doc j query.length))

/-- Boolean hit-and-verify test for the outer position `i`. -/
def hitVerify (hashFn : List Int → Nat) (doc query : List Int) (gs : Finset Nat)
    (θ : ℚ) (n i : Nat) : Bool :=
  decide (hashFn (window doc i n) ∈ gs) &&
    (innerOffsets i query.length n).any (passAt doc query θ)

/-- A concrete injective stand-in for the external `fxhash` function, used in
closed evaluations: base-100 digit packing (injective on the short
non-negative token lists appearing in them). -/
def encodeHash (l : List Int) : Nat := l.foldl (fun a t => a * 100 + t.toNat) 1

/-! ## RollingHash reasoning layer -/

lemma modP_pos : 0 < modP := by norm_num [modP]

lemma polyHFrom_cons (h c : Nat) (l : List Nat) :
    polyHFrom h (c :: l) = polyHFrom ((h * 31 + c) % modP) l := rfl

lemma polyHFrom_lt : ∀ (l : List Nat) (h : Nat), h < modP → polyHFrom h l < modP := by
  intro l
  induction l with
  | nil => intro h hh; exact hh
  | cons c t ih =>
    intro h hh
    rw [polyHFrom_cons]
    exact ih _ (Nat.mod_lt _ modP_pos)

lemma polyH_lt (l : List Nat) : polyH l < modP := polyHFrom_lt l 0 modP_pos

lemma polyH_append_one (l : List Nat) (c : Nat) :
    polyH (l ++ [c]) = (polyH l * 31 + c) % modP := by
  simp [polyH, polyHFrom, List.foldl_append]

lemma mul31_lt (h : Nat) (hh : h < modP) : h * 31 < 31000000217 := by
  have := (Nat.mul_lt_mul_right (by norm_num : (0:Nat) < 31)).mpr hh
  have e : modP * 31 = 31000000217 := by norm_num [modP]
  omega

lemma u64_lit : U64 = 18446744073709551616 := by norm_num [U64]

lemma pow34_lit : (2:Nat) ^ 34 = 17179869184 := by norm_num

/-- One `append` on an in-range state performs exact (non-wrapping)
arithmetic: the `u64` intermediate results stay below `2^64`. -/
lemma append_state (h bp ws c : Nat) (hh : h < modP) (hbp : bp < modP) (hc : c < 2 ^ 34) :
    RollingHash.append ⟨31, modP, h, bp, ws⟩ c =
      ⟨31, modP, (h * 31 + c) % modP,
        if ws + 1 = 1 then 1 else (bp * 31) % modP, ws + 1⟩ := by
  have h1 := mul31_lt h hh
  have h2 := mul31_lt bp hbp
  have hc' : c < 17179869184 := by rw [pow34_lit] at hc; exact hc
  have e1 : u64mul h 31 = h * 31 := by unfold u64mul; rw [u64_lit]; omega
  have e2 : u64add (h * 31) c = h * 31 + c := by unfold u64add; rw [u64_lit]; omega
  have e3 : u64mul bp 31 = bp * 31 := by unfold u64mul; rw [u64_lit]; omega
  simp only [RollingHash.append]
  rw [e1, e2, e3]

lemma appends_from : ∀ (l : List Nat) (h bp ws : Nat), h < modP → bp < modP → 1 ≤ ws →
    (∀ c ∈ l, c < 2 ^ 34) →
    l.foldl (fun (r : RollingHash) c => r.append c) (⟨31, modP, h, bp, ws⟩ : RollingHash) =
      (⟨31, modP, polyHFrom h l, (bp * 31 ^ l.length) % modP, ws + l.length⟩ : RollingHash) := by
  intro l
  induction l with
  | nil =>
    intro h bp ws hh hbp hws hl
    simp [polyHFrom, Nat.mod_eq_of_lt hbp]
  | cons c t ih =>
    intro h bp ws hh hbp hws hl
    have hc : c < 2 ^ 34 := hl c (List.mem_cons_self c t)
    have ht : ∀ x ∈ t, x < 2 ^ 34 := fun x hx => hl x (List.mem_cons_of_mem c hx)
    rw [List.foldl_cons, append_state h bp ws c hh hbp hc, if_neg (by omega)]
    rw [ih _ _ _ (Nat.mod_lt _ modP_pos) (Nat.mod_lt _ modP_pos) (by omega) ht]
    rw [polyHFrom_cons]
    have ebp : (bp * 31 % modP * 31 ^ t.length) % modP = (bp * 31 ^ (c :: t).length) % modP := by
      conv_rhs => rw [List.length_cons, pow_succ]
      rw [Nat.mul_mod (bp * 31 % modP), Nat.mod_mod_of_dvd _ dvd_rfl, ← Nat.mul_mod]
      ring_nf
    have ews : ws + 1 + t.length = ws + (c :: t).length := by
      rw [List.length_cons]; omega
    rw [ebp, ews]

lemma new_append (c : Nat) (hc : c < 2 ^ 34) :
    RollingHash.new.append c = ⟨31, modP, c % modP, 1, 1⟩ := by
  have hc' : c < 17179869184 := by rw [pow34_lit] at hc; exact hc
  have e1 : u64mul 0 31 = 0 := by unfold u64mul; rw [u64_lit]
  have e2 : u64add 0 c = c := by unfold u64add; rw [u64_lit]; omega
  show RollingHash.append ⟨31, 1000000007, 0, 1, 0⟩ c = _
  simp only [RollingHash.append]
  rw [e1, e2]
  rfl

/-- Characterization of a freshly primed accumulator (no overflow when all
symbols are below `2^34`). -/
lemma primeAppends_cons (c : Nat) (l : List Nat) (hc : c < 2 ^ 34)
    (hl : ∀ x ∈ l, x < 2 ^ 34) :
    primeAppends (c :: l) =
      ⟨31, modP, polyH (c :: l), 31 ^ l.length % modP, 1 + l.length⟩ := by
  show (c :: l).foldl (fun r c => r.append c) RollingHash.new = _
  rw [List.foldl_cons, new_append c hc]
  rw [appends_from l _ _ _ (Nat.mod_lt _ modP_pos) (by norm_num [modP]) (le_refl 1) hl]
  rw [one_mul]
  have : polyH (c :: l) = polyHFrom (c % modP) l := by
    simp [polyH, polyHFrom_cons]
  rw [this]

lemma primeAppends_hash (l : List Nat) (hne : l ≠ []) (hl : ∀ x ∈ l, x < 2 ^ 34) :
    (primeAppends l).get_hash = polyH l := by
  match l with
  | c :: t =>
    rw [primeAppends_cons c t (hl c (List.mem_cons_self c t))
      (fun x hx => hl x (List.mem_cons_of_mem c hx))]
    rfl

lemma polyHFrom_modeq : ∀ (l : List Nat) (h : Nat),
    polyHFrom h l ≡ h * 31 ^ l.length + polyH l [MOD modP] := by
  intro l
  induction l with
  | nil =>
    intro h
    simp only [polyHFrom, List.foldl_nil, List.length_nil, pow_zero, mul_one, polyH]
    exact Nat.ModEq.refl h
  | cons c t ih =>
    intro h
    rw [polyHFrom_cons]
    have e1 := ih ((h * 31 + c) % modP)
    have e2 : ((h * 31 + c) % modP) * 31 ^ t.length + polyH t ≡
        (h * 31 + c) * 31 ^ t.length + polyH t [MOD modP] :=
      Nat.ModEq.add_right _ (Nat.ModEq.mul_right _ (Nat.mod_modEq _ _))
    have e3 : polyH (c :: t) ≡ c * 31 ^ t.length + polyH t [MOD modP] := by
      have : polyH (c :: t) = polyHFrom (c % modP) t := by simp [polyH, polyHFrom_cons]
      rw [this]
      refine (ih (c % modP)).trans ?_
      exact Nat.ModEq.add_right _ (Nat.ModEq.mul_right _ (Nat.mod_modEq _ _))
    have e4 : h * 31 ^ (c :: t).length + polyH (c :: t) ≡
        h * 31 ^ (c :: t).length + (c * 31 ^ t.length + polyH t) [MOD modP] :=
      Nat.ModEq.add_left _ e3
    refine (e1.trans e2).trans (Nat.ModEq.trans ?_ e4.symm)
    have : (h * 31 + c) * 31 ^ t.length + polyH t =
        h * 31 ^ (c :: t).length + (c * 31 ^ t.length + polyH t) := by
      rw [List.length_cons, pow_succ]
      ring
    rw [this]

/-- Sliding a primed window computes the polynomial hash of the shifted
window, as long as no symbol is large enough to overflow `u64` (all below
`2^34`). -/
lemma slide_fresh_hash (s1 snew : Nat) (rest : List Nat)
    (h1 : s1 < 2 ^ 34) (h2 : ∀ c ∈ rest, c < 2 ^ 34) (h3 : snew < 2 ^ 34) :
    ((primeAppends (s1 :: rest)).slide s1 snew).get_hash =
      polyH (rest ++ [snew]) := by
  rw [primeAppends_cons s1 rest h1 h2]
  have hmP : modP = 1000000007 := rfl
  have h1' : s1 < 17179869184 := by rw [pow34_lit] at h1; exact h1
  have h3' : snew < 17179869184 := by rw [pow34_lit] at h3; exact h3
  set m := rest.length with hm
  set H := polyH (s1 :: rest) with hH
  set B := 31 ^ m % modP with hB
  have HB : H < modP := polyH_lt _
  have Bb : B < modP := Nat.mod_lt _ modP_pos
  -- the `u64` products involved do not wrap
  have hs1B : s1 * B < 18446744073709551616 := by
    have h := Nat.mul_le_mul (Nat.le_of_lt h1') (Nat.le_of_lt Bb)
    rw [hmP] at h
    omega
  set X := (s1 * B) % modP with hX
  have Xb : X < modP := Nat.mod_lt _ modP_pos
  have step1 : (RollingHash.slide ⟨31, modP, H, B, 1 + m⟩ s1 snew).get_hash =
      (((H + modP - X) % modP) * 31 + snew) % modP := by
    simp only [RollingHash.slide, RollingHash.get_hash, u64mul, u64add, u64sub, u64_lit]
    have e0 : s1 * B % 18446744073709551616 = s1 * B := by omega
    rw [e0]
    have e1 : (H + modP) % 18446744073709551616 = H + modP := by rw [hmP] at HB ⊢; omega
    rw [e1]
    have e2 : (H + modP + 18446744073709551616 - X) % 18446744073709551616 = H + modP - X := by
      rw [hmP] at HB Xb ⊢; omega
    rw [e2]
    have e3 : (H + modP - X) % modP < modP := Nat.mod_lt _ modP_pos
    have e4 := mul31_lt _ e3
    have e5 : (H + modP - X) % modP * 31 % 18446744073709551616 =
        (H + modP - X) % modP * 31 := by omega
    rw [e5]
    have e6 : ((H + modP - X) % modP * 31 + snew) % 18446744073709551616 =
        (H + modP - X) % modP * 31 + snew := by omega
    rw [e6]
  rw [step1]
  rw [polyH_append_one]
  -- it remains to show the evicted accumulator equals the poly hash of `rest`
  have key : (H + modP - X) % modP = polyH rest := by
    have k1 : H ≡ s1 * 31 ^ m + polyH rest [MOD modP] := by
      have : H = polyHFrom (s1 % modP) rest := by
        rw [hH]; simp [polyH, polyHFrom_cons]
      rw [this]
      refine (polyHFrom_modeq rest (s1 % modP)).trans ?_
      exact Nat.ModEq.add_right _ (Nat.ModEq.mul_right _ (Nat.mod_modEq _ _))
    have k2 : X ≡ s1 * 31 ^ m [MOD modP] := by
      rw [hX, hB]
      refine (Nat.mod_modEq _ _).trans ?_
      exact Nat.ModEq.mul_left _ (Nat.mod_modEq _ _)
    have hXle : X ≤ H + modP := by omega
    have k3 : (H + modP - X) + X ≡ polyH rest + X [MOD modP] := by
      rw [Nat.sub_add_cancel hXle]
      have k4 : H + modP ≡ H + 0 [MOD modP] :=
        Nat.ModEq.add_left H ((Nat.modEq_zero_iff_dvd).mpr dvd_rfl)
      refine k4.trans ?_
      rw [Nat.add_zero]
      refine k1.trans ?_
      refine Nat.ModEq.trans ?_ (Nat.ModEq.add_left _ k2.symm)
      rw [Nat.add_comm]
    have k5 : H + modP - X ≡ polyH rest [MOD modP] := Nat.ModEq.add_right_cancel' X k3
    calc (H + modP - X) % modP = polyH rest % modP := k5
    _ = polyH rest := Nat.mod_eq_of_lt (polyH_lt rest)
  rw [key]

/-- Full-state version: `slide` on a primed window equals re-priming on the
shifted window (base power and window size are untouched by `slide`). -/
lemma slide_fresh_state (s1 snew : Nat) (rest : List Nat)
    (h1 : s1 < 2 ^ 34) (h2 : ∀ c ∈ rest, c < 2 ^ 34) (h3 : snew < 2 ^ 34) :
    (primeAppends (s1 :: rest)).slide s1 snew = primeAppends (rest ++ [snew]) := by
  have hb' : ∀ x ∈ rest ++ [snew], x < 2 ^ 34 := by
    intro x hx
    rcases List.mem_append.mp hx with h | h
    · exact h2 x h
    · simp at h; subst h; exact h3
  have hRHS : primeAppends (rest ++ [snew]) =
      ⟨31, modP, polyH (rest ++ [snew]), 31 ^ rest.length % modP, 1 + rest.length⟩ := by
    cases rest with
    | nil =>
      simpa using primeAppends_cons snew [] h3 (by intro x hx; simp at hx)
    | cons c t =>
      rw [List.cons_append, primeAppends_cons c (t ++ [snew])
        (h2 c (List.mem_cons_self c t))
        (fun x hx => hb' x (by rw [List.cons_append]; exact List.mem_cons_of_mem c hx))]
      simp [List.length_append, List.length_cons]
  have hh := slide_fresh_hash s1 snew rest h1 h2 h3
  rw [primeAppends_cons s1 rest h1 h2] at hh ⊢
  rw [hRHS]
  have hh' : (RollingHash.slide
      ⟨31, modP, polyH (s1 :: rest), 31 ^ rest.length % modP, 1 + rest.length⟩ s1 snew).hash =
      polyH (rest ++ [snew]) := hh
  have eform : RollingHash.slide
      ⟨31, modP, polyH (s1 :: rest), 31 ^ rest.length % modP, 1 + rest.length⟩ s1 snew =
      ⟨31, modP,
        (RollingHash.slide
          ⟨31, modP, polyH (s1 :: rest), 31 ^ rest.length % modP, 1 + rest.length⟩ s1 snew).hash,
        31 ^ rest.length % modP, 1 + rest.length⟩ := rfl
  rw [eform, hh']

/-! ## C10: the hash field stays reduced mod the prime -/

lemma applyRollOp_modulo (r : RollingHash) (op : RollOp) :
    (applyRollOp r op).modulo = r.modulo := by
  cases op <;> rfl

lemma applyRollOp_hash_lt (r : RollingHash) (op : RollOp) (h : 0 < r.modulo) :
    (applyRollOp r op).hash < r.modulo := by
  cases op <;> exact Nat.mod_lt _ h

lemma foldRollOps_hash_lt : ∀ (ops : List RollOp) (r : RollingHash),
    r.modulo = 1000000007 → r.hash < 1000000007 →
    (ops.foldl applyRollOp r).hash < 1000000007 := by
  intro ops
  induction ops with
  | nil => intro r _ hh; exact hh
  | cons op t ih =>
    intro r hm hh
    rw [List.foldl_cons]
    refine ih _ ?_ ?_
    · rw [applyRollOp_modulo, hm]
    · have := applyRollOp_hash_lt r op (by omega)
      omega

/-! ## Weighted Jaccard reasoning layer -/

lemma find_keyed (d : List Int) (f : Int → Nat) (t : Int) :
    ((d.map (fun s => (s, f s))).find? (fun p => p.1 == t)) =
      if t ∈ d then some (t, f t) else none := by
  induction d with
  | nil => simp
  | cons s d ih =>
    by_cases hs : s = t
    · subst hs
      simp [List.find?_cons]
    · have hts : ¬ t = s := fun h => hs h.symm
      simp [List.find?_cons, hs, ih, List.mem_cons, hts]

lemma mapGet_cfv (l : List Int) (t : Int) :
    mapGet (create_frequency_vector l) t = if t ∈ l then some (l.count t) else none := by
  rw [mapGet, create_frequency_vector, find_keyed]
  by_cases h : t ∈ l.dedup
  · rw [if_pos h, if_pos (List.mem_dedup.mp h)]; rfl
  · rw [if_neg h, if_neg (fun hh => h (List.mem_dedup.mpr hh))]; rfl

lemma toFinset_dedup_eq (l : List Int) : l.dedup.toFinset = l.toFinset := by
  ext x
  simp [List.mem_toFinset, List.mem_dedup]

lemma sum_toFinset_dedup (l : List Int) (f : Int → Nat) :
    ∑ x ∈ l.toFinset, f x = (l.dedup.map f).sum := by
  rw [← toFinset_dedup_eq, List.sum_toFinset f l.nodup_dedup]

lemma intersection_cfv (a b : List Int) :
    intersection_frequency (create_frequency_vector a) (create_frequency_vector b) =
      (a.dedup.map (fun t => min (a.count t) (b.count t))).sum := by
  rw [intersection_frequency]
  set y := create_frequency_vector b with hy
  rw [create_frequency_vector, List.map_map]
  congr 1
  apply List.map_congr_left
  intro t ht
  simp only [Function.comp_apply]
  rw [hy, mapGet_cfv]
  by_cases hb : t ∈ b
  · rw [if_pos hb]
  · rw [if_neg hb, List.count_eq_zero.mpr hb]
    simp

lemma intersection_eq_interW (a b : List Int) :
    intersection_frequency (create_frequency_vector a) (create_frequency_vector b) =
      interW a b := by
  rw [intersection_cfv, interW, ← sum_toFinset_dedup]
  refine Finset.sum_subset Finset.subset_union_left ?_
  intro x _ hxa
  have hx : x ∉ a := fun h => hxa (List.mem_toFinset.mpr h)
  rw [List.count_eq_zero.mpr hx]
  simp

lemma sumFrequencies_cfv (l : List Int) :
    sumFrequencies (create_frequency_vector l) = l.length := by
  rw [sumFrequencies, create_frequency_vector, List.map_map]
  exact List.sum_map_count_dedup_eq_length l

/-- Normal form of `weighted_jaccard` used in the proofs. -/
lemma weighted_jaccard_eq (a b : List Int) :
    weighted_jaccard a b =
      if 0 < a.length + b.length - interW a b
      then (interW a b : ℚ) / ((a.length + b.length - interW a b : Nat) : ℚ)
      else 0 := by
  unfold weighted_jaccard
  simp only [intersection_eq_interW, sumFrequencies_cfv]

lemma count_sum_union_left (a b : List Int) :
    ∑ t ∈ a.toFinset ∪ b.toFinset, a.count t = a.length := by
  rw [← List.sum_toFinset_count_eq_length a]
  refine (Finset.sum_subset Finset.subset_union_left ?_).symm
  intro x _ hxa
  have hx : x ∉ a := fun h => hxa (List.mem_toFinset.mpr h)
  exact List.count_eq_zero.mpr hx

lemma count_sum_union_right (a b : List Int) :
    ∑ t ∈ a.toFinset ∪ b.toFinset, b.count t = b.length := by
  rw [← List.sum_toFinset_count_eq_length b]
  refine (Finset.sum_subset Finset.subset_union_right ?_).symm
  intro x _ hxb
  have hx : x ∉ b := fun h => hxb (List.mem_toFinset.mpr h)
  exact List.count_eq_zero.mpr hx

lemma interW_le_left (a b : List Int) : interW a b ≤ a.length := by
  rw [← count_sum_union_left a b]
  exact Finset.sum_le_sum fun i _ => Nat.min_le_left _ _

lemma interW_le_right (a b : List Int) : interW a b ≤ b.length := by
  rw [← count_sum_union_right a b]
  exact Finset.sum_le_sum fun i _ => Nat.min_le_right _ _

lemma interW_comm (a b : List Int) : interW a b = interW b a := by
  rw [interW, interW, Finset.union_comm]
  exact Finset.sum_congr rfl fun t _ => Nat.min_comm _ _

/-! ## The spec's similarity formula (for the refinement claim C6) -/

lemma intersection_weight_spec_eq_interW (a b : List Int) :
    intersection_weight_spec a b = interW a b := by
  rw [intersection_weight_spec, ← sum_toFinset_dedup, interW, List.toFinset_append]

lemma weighted_jaccard_spec_eq (a b : List Int) :
    weighted_jaccard a b = weighted_jaccard_spec a b := by
  rw [weighted_jaccard_eq, weighted_jaccard_spec, intersection_weight_spec_eq_interW]
  by_cases h : a.length + b.length - interW a b = 0
  · rw [if_pos h, if_neg (by omega)]
  · rw [if_neg h, if_pos (by omega)]

/-! ## Scan-loop characterizations -/

lemma verifyRange_eq_any (doc query : List Int) (θ : ℚ) :
    ∀ js : List Nat, (∀ j ∈ js, j + query.length ≤ doc.length) →
    verifyRange doc query θ js = some (js.any (passAt doc query θ)) := by
  intro js
  induction js with
  | nil => intro _; rfl
  | cons j rest ih =>
    intro h
    simp only [verifyRange]
    rw [if_pos (h j (List.mem_cons_self j rest))]
    by_cases hp : θ ≤ weighted_jaccard query (window doc j query.length)
    · rw [if_pos hp]
      simp [List.any_cons, passAt, hp]
    · rw [if_neg hp, ih (fun x hx => h x (List.mem_cons_of_mem _ hx))]
      simp [List.any_cons, passAt, hp]

lemma outerLoopD_eq_any (hashFn : List Int → Nat) (doc query : List Int)
    (gs : Finset Nat) (θ : ℚ) (n : Nat) :
    ∀ is : List Nat, (∀ i ∈ is, i + n ≤ doc.length) →
      (∀ i ∈ is, ∀ j ∈ innerOffsets i query.length n, j + query.length ≤ doc.length) →
    outerLoopD hashFn doc query gs θ n is =
      some (is.any (hitVerify hashFn doc query gs θ n)) := by
  intro is
  induction is with
  | nil => intro _ _; rfl
  | cons i rest ih =>
    intro h1 h2
    simp only [outerLoopD]
    rw [if_pos (h1 i (List.mem_cons_self i rest))]
    have ihr := ih (fun x hx => h1 x (List.mem_cons_of_mem _ hx))
      (fun x hx => h2 x (List.mem_cons_of_mem _ hx))
    by_cases hhit : hashFn (window doc i n) ∈ gs
    · rw [if_pos hhit, verifyRange_eq_any doc query θ _ (h2 i (List.mem_cons_self i rest))]
      by_cases hp : (innerOffsets i query.length n).any (passAt doc query θ) = true
      · rw [hp]
        simp [List.any_cons, hitVerify, hhit, hp]
      · have hp' : (innerOffsets i query.length n).any (passAt doc query θ) = false :=
          Bool.eq_false_iff.mpr hp
        rw [hp', ihr]
        simp [List.any_cons, hitVerify, hhit, hp']
    · rw [if_neg hhit, ihr]
      simp [List.any_cons, hitVerify, hhit]

lemma inner_start_eq (start qlen n : Nat) : inner_start start qlen n = start + n - qlen := by
  rw [inner_start]
  omega

lemma mem_innerOffsets (start qlen n j : Nat) :
    j ∈ innerOffsets start qlen n ↔ inner_start start qlen n ≤ j ∧ j ≤ start := by
  rw [innerOffsets, List.mem_range'_1]
  omega

/-! ## Rolling-scanner invariant: the accumulator tracks the current window -/

lemma window_length (l : List Int) (s len : Nat) (h : s + len ≤ l.length) :
    (window l s len).length = len := by
  simp only [window, List.length_take, List.length_drop]
  omega

lemma window_cons_getD (doc : List Int) (a n : Nat) (hn : 1 ≤ n) (h : a + n ≤ doc.length) :
    window doc a n = doc.getD a 0 :: window doc (a + 1) (n - 1) := by
  have ha : a < doc.length := by omega
  obtain ⟨m, rfl⟩ : ∃ m, n = m + 1 := ⟨n - 1, by omega⟩
  rw [window, List.drop_eq_getElem_cons ha, List.take_succ_cons]
  rw [List.getD_eq_getElem?_getD, List.getElem?_eq_getElem ha]
  simp [window]

lemma window_snoc_getD (doc : List Int) (a n : Nat) (hn : 1 ≤ n) (h : a + n < doc.length) :
    window doc (a + 1) (n - 1) ++ [doc.getD (a + n) 0] = window doc (a + 1) n := by
  obtain ⟨m, rfl⟩ : ∃ m, n = m + 1 := ⟨n - 1, by omega⟩
  have e1 : a + (m + 1) = a + 1 + m := by omega
  rw [e1, window, window]
  simp only [Nat.add_sub_cancel]
  rw [List.take_succ, List.getElem?_drop]
  have hd : a + 1 + m < doc.length := by omega
  rw [List.getElem?_eq_getElem hd]
  rw [List.getD_eq_getElem?_getD, List.getElem?_eq_getElem hd]
  simp

lemma toU64_small (t : Int) (h0 : 0 ≤ t) (h1 : t < 2 ^ 31) : toU64 t < 2 ^ 34 := by
  have e31 : (2:Int) ^ 31 = 2147483648 := by norm_num
  have e64 : (2:Int) ^ 64 = 18446744073709551616 := by norm_num
  rw [toU64, e64]
  rw [e31] at h1
  rw [pow34_lit]
  rw [Int.emod_eq_of_lt h0 (by omega)]
  omega

lemma getD_mem (l : List Int) (i : Nat) (h : i < l.length) : l.getD i 0 ∈ l := by
  rw [List.getD_eq_getElem?_getD, List.getElem?_eq_getElem h]
  exact List.getElem_mem h

lemma window_subset (l : List Int) (s len : Nat) : ∀ x ∈ window l s len, x ∈ l :=
  fun x hx => List.mem_of_mem_drop (List.mem_of_mem_take hx)

/-- Sliding an accumulator primed on the window at `a` with the evicted and
admitted document symbols yields the accumulator primed on the window at
`a + 1` (tokens must be non-negative `i32`s so no `u64` overflow occurs). -/
lemma primeAppends_shift (doc : List Int) (a n : Nat) (hn : 1 ≤ n) (h : a + n < doc.length)
    (htok : ∀ t ∈ doc, 0 ≤ t ∧ t < 2 ^ 31) :
    (primeAppends ((window doc a n).map toU64)).slide
        (toU64 (doc.getD a 0)) (toU64 (doc.getD (a + n) 0)) =
      primeAppends ((window doc (a + 1) n).map toU64) := by
  have hsmall : ∀ t ∈ doc, toU64 t < 2 ^ 34 := fun t ht =>
    toU64_small t (htok t ht).1 (htok t ht).2
  rw [window_cons_getD doc a n hn (Nat.le_of_lt h), List.map_cons]
  rw [slide_fresh_state _ _ _
    (hsmall _ (getD_mem doc a (by omega)))
    (by
      intro x hx
      rcases List.mem_map.mp hx with ⟨t, ht, rfl⟩
      exact hsmall t (window_subset doc (a + 1) (n - 1) t ht))
    (hsmall _ (getD_mem doc (a + n) h))]
  have emap : List.map toU64 (window doc (a + 1) (n - 1)) ++ [toU64 (doc.getD (a + n) 0)] =
      List.map toU64 (window doc (a + 1) (n - 1) ++ [doc.getD (a + n) 0]) := by
    rw [List.map_append]
    rfl
  rw [emap, window_snoc_getD doc a n hn h]

/-- The rolling prefiltered scanner loop coincides with the direct-hash loop
run with the rolling window fingerprint function, position by position. -/
lemma rollLoop_eq_outerLoopD (doc query : List Int) (gs : Finset Nat) (θ : ℚ) (n : Nat)
    (htok : ∀ t ∈ doc, 0 ≤ t ∧ t < 2 ^ 31) (hn : 1 ≤ n) (hnq : n ≤ query.length) :
    ∀ (k a : Nat), a + k + query.length ≤ doc.length →
    rollLoop doc query gs θ n (primeAppends ((window doc a n).map toU64)) (List.range' a k) =
      outerLoopD rollingWindowHash doc query gs θ n (List.range' a k) := by
  intro k
  induction k with
  | zero => intro a _; rfl
  | succ k ih =>
    intro a h
    rw [List.range'_succ a k 1]
    simp only [rollLoop, outerLoopD]
    have han : a + n ≤ doc.length := by omega
    have han' : a + n < doc.length := by omega
    rw [if_pos han]
    have hhq : (primeAppends ((window doc a n).map toU64)).get_hash =
        rollingWindowHash (window doc a n) := rfl
    rw [hhq]
    have hshift := primeAppends_shift doc a n hn han' htok
    have ihb := ih (a + 1) (by omega)
    by_cases hhit : rollingWindowHash (window doc a n) ∈ gs
    · rw [if_pos hhit, if_pos hhit]
      rcases hv : verifyRange doc query θ (innerOffsets a query.length n) with _ | b
      · rfl
      · cases b
        · rw [if_pos han', hshift, ihb]
        · rfl
    · rw [if_neg hhit, if_neg hhit, if_pos han', hshift, ihb]

/-- The rolling scanner is the direct-hash scanner instantiated with the
rolling window fingerprint, whenever `1 ≤ n ≤ len(q) ≤ len(d)` and the
tokens are non-negative `i32` values. -/
lemma has_doc_duplicate_rolling_eq (doc query : List Int) (gs : Finset Nat) (θ : ℚ) (n : Nat)
    (htok : ∀ t ∈ doc, 0 ≤ t ∧ t < 2 ^ 31) (hn : 1 ≤ n) (hnq : n ≤ query.length)
    (hql : query.length ≤ doc.length) :
    has_doc_duplicate_rolling doc query gs θ n =
      has_doc_duplicate rollingWindowHash doc query gs θ n := by
  rw [has_doc_duplicate_rolling, has_doc_duplicate]
  rw [if_pos (le_trans hnq hql), if_pos hql, if_pos hql]
  rw [List.range_eq_range' (doc.length - query.length)]
  exact rollLoop_eq_outerLoopD doc query gs θ n htok hn hnq
    (doc.length - query.length) 0 (by omega)

/-! ## Claim theorems -/

section ClaimEvaluations

/- Batteries marks the `Rat` arithmetic operations `@[irreducible]`; closed
evaluations of the model need them unfolded by `decide`. -/
attribute [local semireducible] Rat.mul Rat.add Rat.sub Rat.inv

/-- C1 (code_bug evidence): with a document of length 10 and a query of
length 15, all three scanners hit the unsigned-subtraction /
out-of-range-slice fault (`none`) instead of returning `false` as the spec
requires (Scenario 2). -/
theorem C1_length_mismatch_faults :
    has_doc_duplicate_naive [0, 1, 2, 3, 4, 5, 6, 7, 8, 9]
        [0, 1, 2, 3, 4, 5, 6, 7, 8, 9, 10, 11, 12, 13, 14] (1/2) = none ∧
    has_doc_duplicate encodeHash [0, 1, 2, 3, 4, 5, 6, 7, 8, 9]
        [0, 1, 2, 3, 4, 5, 6, 7, 8, 9, 10, 11, 12, 13, 14] ∅ (1/2) 3 = none ∧
    has_doc_duplicate_rolling [0, 1, 2, 3, 4, 5, 6, 7, 8, 9]
        [0, 1, 2, 3, 4, 5, 6, 7, 8, 9, 10, 11, 12, 13, 14] ∅ (1/2) 3 = none := by
  refine ⟨?_, ?_, ?_⟩ <;> rfl

/-- C2 (code_bug evidence): the naive scanner's loop bound
`0..len(d) - len(q)` excludes the final window.  For `d = [1,2,3]`,
`q = [2,3]`, threshold `1`, the window at offset `len(d) - len(q) = 1` is
`[2,3]` with similarity `1 ≥ 1`, yet the scan returns `false`. -/
theorem C2_naive_misses_last_window :
    has_doc_duplicate_naive [1, 2, 3] [2, 3] 1 = some false ∧
    window [1, 2, 3] 1 2 = [2, 3] ∧
    (1 : ℚ) ≤ weighted_jaccard [2, 3] (window [1, 2, 3] 1 2) := by
  refine ⟨?_, ?_, ?_⟩ <;> decide

/-- C3 (amended): if some window at offset `j` among the scanned offsets
(`j < len(d) − len(q)`, so the naive scan returns true through it) scores at
least the threshold, and it contains an exact shared `n`-gram of the query at
a document position `i` that the outer loop actually visits — the amendment:
`i < len(d) − len(q)` — then `has_doc_duplicate` with the query's `n`-gram
set also returns `true`, for every fingerprint function. -/
theorem C3_prefilter_finds_shared_ngram (hashFn : List Int → Nat) (doc query : List Int)
    (gs : Finset Nat) (θ : ℚ) (n j i k : Nat)
    (hn : 1 ≤ n) (hnq : n ≤ query.length) (hql : query.length ≤ doc.length)
    (hg : ngram hashFn query n = some gs)
    (hj : j < doc.length - query.length)
    (hpass : θ ≤ weighted_jaccard query (window doc j query.length))
    (hji : j ≤ i) (hij : i ≤ j + (query.length - n))
    (hiB : i < doc.length - query.length)
    (hk : k + n ≤ query.length)
    (hwin : window doc i n = window query k n) :
    has_doc_duplicate hashFn doc query gs θ n = some true := by
  rw [has_doc_duplicate, if_pos hql]
  rw [outerLoopD_eq_any hashFn doc query gs θ n _
    (by
      intro x hx
      rw [List.mem_range] at hx
      omega)
    (by
      intro x hx j' hj'
      rw [List.mem_range] at hx
      rw [mem_innerOffsets] at hj'
      omega)]
  congr 1
  rw [List.any_eq_true]
  refine ⟨i, List.mem_range.mpr hiB, ?_⟩
  rw [hitVerify, Bool.and_eq_true]
  constructor
  · refine decide_eq_true ?_
    rw [ngram, if_pos hnq] at hg
    obtain rfl := Option.some.inj hg
    rw [List.mem_toFinset]
    refine List.mem_map.mpr ⟨k, ?_, by rw [hwin]⟩
    exact List.mem_range.mpr (by omega)
  · rw [List.any_eq_true]
    refine ⟨j, ?_, ?_⟩
    · rw [mem_innerOffsets, inner_start_eq]
      omega
    · rw [passAt]
      exact decide_eq_true hpass

/-- C3 witness: Scenario 1 — document `[1..10]`, query `[1..5]`, width 3,
threshold 0.8; the query's 3-gram `[1,2,3]` occurs at document position 0
inside the passing window at offset 0. -/
theorem C3_prefilter_finds_shared_ngram_witness :
    has_doc_duplicate encodeHash [1, 2, 3, 4, 5, 6, 7, 8, 9, 10] [1, 2, 3, 4, 5]
      ((ngram encodeHash [1, 2, 3, 4, 5] 3).getD ∅) (4/5) 3 = some true :=
  C3_prefilter_finds_shared_ngram encodeHash [1, 2, 3, 4, 5, 6, 7, 8, 9, 10] [1, 2, 3, 4, 5]
    ((ngram encodeHash [1, 2, 3, 4, 5] 3).getD ∅) (4/5) 3 0 0 0
    (by decide) (by decide) (by decide) (by rfl) (by decide) (by decide)
    (by decide) (by decide) (by decide) (by decide) (by decide)

/-- C3 counterexample to the claim as stated: `d = [9,9,2,3,8]`,
`q = [1,2,3]`, `n = 2`, threshold `1/2`.  The naive scan succeeds (offset 1,
window `[9,2,3]`, similarity `2/4 ≥ 1/2`), and that window shares the exact
2-gram `[2,3]` with the query — but only at document position
`2 = len(d) − len(q)`, which the outer loop `0..len(d) − len(q)` never
visits, so the prefiltered scanner returns `false`. -/
theorem C3_tail_ngram_counterexample :
    has_doc_duplicate_naive [9, 9, 2, 3, 8] [1, 2, 3] (1/2) = some true ∧
    (1/2 : ℚ) ≤ weighted_jaccard [1, 2, 3] (window [9, 9, 2, 3, 8] 1 3) ∧
    window [9, 9, 2, 3, 8] 2 2 = window [1, 2, 3] 1 2 ∧
    has_doc_duplicate encodeHash [9, 9, 2, 3, 8] [1, 2, 3]
      ((ngram encodeHash [1, 2, 3] 2).getD ∅) (1/2) 2 = some false := by
  refine ⟨?_, ?_, ?_, ?_⟩ <;> decide

/-- C4 (amended): `weighted_jaccard A B = 1` iff the two spans have equal
token frequency maps AND are non-empty; for `A = B = []` the union weight is
`0` and the code returns `0.0`. -/
theorem C4_jaccard_one_iff_nonempty (a b : List Int) :
    weighted_jaccard a b = 1 ↔ ((∀ t : Int, a.count t = b.count t) ∧ a ≠ []) := by
  rw [weighted_jaccard_eq]
  have hIa := interW_le_left a b
  have hIb := interW_le_right a b
  constructor
  · intro h1
    by_cases h : 0 < a.length + b.length - interW a b
    · rw [if_pos h] at h1
      have hUne : ((a.length + b.length - interW a b : Nat) : ℚ) ≠ 0 :=
        Nat.cast_ne_zero.mpr (Nat.pos_iff_ne_zero.mp h)
      have hIU : interW a b = a.length + b.length - interW a b := by
        have := (div_eq_one_iff_eq hUne).mp h1
        exact_mod_cast this
      have hla : interW a b = a.length := by omega
      have hlb : interW a b = b.length := by omega
      have hlen : 0 < a.length := by omega
      refine ⟨?_, List.length_pos.mp hlen⟩
      have hsum1 : ∑ t ∈ a.toFinset ∪ b.toFinset, min (a.count t) (b.count t) =
          ∑ t ∈ a.toFinset ∪ b.toFinset, a.count t := by
        rw [count_sum_union_left a b]
        exact hla
      have hsum2 : ∑ t ∈ a.toFinset ∪ b.toFinset, min (a.count t) (b.count t) =
          ∑ t ∈ a.toFinset ∪ b.toFinset, b.count t := by
        rw [count_sum_union_right a b]
        exact hlb
      have hpt1 := (Finset.sum_eq_sum_iff_of_le
        (fun i _ => Nat.min_le_left (a.count i) (b.count i))).mp hsum1
      have hpt2 := (Finset.sum_eq_sum_iff_of_le
        (fun i _ => Nat.min_le_right (a.count i) (b.count i))).mp hsum2
      intro t
      by_cases ht : t ∈ a.toFinset ∪ b.toFinset
      · have e1 := hpt1 t ht
        have e2 := hpt2 t ht
        omega
      · have hta : t ∉ a := fun hh => ht (Finset.mem_union_left _ (List.mem_toFinset.mpr hh))
        have htb : t ∉ b := fun hh => ht (Finset.mem_union_right _ (List.mem_toFinset.mpr hh))
        rw [List.count_eq_zero.mpr hta, List.count_eq_zero.mpr htb]
    · rw [if_neg h] at h1
      exact absurd h1 (by norm_num)
  · rintro ⟨hc, ha⟩
    have hlb : a.length = b.length := by
      rw [← count_sum_union_left a b, ← count_sum_union_right a b]
      exact Finset.sum_congr rfl fun t _ => hc t
    have hI : interW a b = a.length := by
      rw [← count_sum_union_left a b]
      exact Finset.sum_congr rfl fun t _ => by rw [hc t, Nat.min_self]
    have hpos : 0 < a.length := List.length_pos.mpr ha
    rw [hI, ← hlb]
    rw [if_pos (by omega)]
    have e : a.length + a.length - a.length = a.length := by omega
    rw [e]
    exact div_self (Nat.cast_ne_zero.mpr (Nat.pos_iff_ne_zero.mp hpos))

/-- C4 counterexample to the claim as stated: the empty spans are
permutation-identical multisets, yet the similarity is `0`, not `1`. -/
theorem C4_empty_spans_counterexample :
    ([] : List Int).Perm [] ∧ weighted_jaccard ([] : List Int) [] = 0 ∧
      weighted_jaccard ([] : List Int) [] ≠ 1 :=
  ⟨List.Perm.refl [], by decide, by decide⟩

/-- C5 (amended): priming with `s1 :: rest` (n `append` calls) and then
`slide(s1, snew)` gives the same hash as priming fresh with `rest ++ [snew]`,
provided every symbol is below `2^34` (so the `u64` products
`hash * base + char` and `old_char * base_power` cannot overflow; this covers
all non-negative `i32` tokens). -/
theorem C5_slide_matches_fresh (s1 snew : Nat) (rest : List Nat)
    (h1 : s1 < 2 ^ 34) (h2 : ∀ c ∈ rest, c < 2 ^ 34) (h3 : snew < 2 ^ 34) :
    ((primeAppends (s1 :: rest)).slide s1 snew).get_hash =
      (primeAppends (rest ++ [snew])).get_hash := by
  rw [slide_fresh_state s1 snew rest h1 h2 h3]

/-- C5 witness: the spec's Scenario 5 — `[1,2,3,4,5]` then `slide(1,6)`
equals the fresh hash of `[2,3,4,5,6]`. -/
theorem C5_slide_matches_fresh_witness :
    ((primeAppends [1, 2, 3, 4, 5]).slide 1 6).get_hash =
      (primeAppends [2, 3, 4, 5, 6]).get_hash :=
  C5_slide_matches_fresh 1 6 [2, 3, 4, 5] (by decide) (by decide) (by decide)

/-- C5 counterexample to the claim for arbitrary `u64` symbols: with
`s1 = 2^63` the product `old_char * base_power` wraps mod `2^64`, and the
slid hash no longer matches the freshly primed hash of the shifted window
(in a debug build the same multiplication panics). -/
theorem C5_overflow_counterexample :
    ((primeAppends [2 ^ 63, 0]).slide (2 ^ 63) 0).get_hash ≠
      (primeAppends [0, 0]).get_hash := by decide

/-- C6: `weighted_jaccard` equals the spec's exact `I / U` formula (with
`0.0` when `U = 0`), and on the spec's Scenario 3 inputs gives `2/6`. -/
theorem C6_jaccard_formula :
    (∀ a b : List Int, weighted_jaccard a b = weighted_jaccard_spec a b) ∧
    weighted_jaccard [1, 1, 2, 3] [1, 2, 2, 2] = 2/6 :=
  ⟨weighted_jaccard_spec_eq, by decide⟩

/-- C7: on a fingerprint hit at position `i`, both prefiltered scanners score
exactly the query-length windows at offsets `max(0, i − len(q) + n) .. i`
inclusive, in increasing order, returning `true` at the first score ≥
threshold: (1) the code's inner start equals `max(0, i − len(q) + n)`;
(2) the scored offsets are exactly that inclusive range; (3) they are
strictly increasing; (4) the verification loop is the short-circuiting
first-pass `any`; (5) the direct scanner's step on a hit defers to that
verification and stops on `true`; (6) so does the rolling scanner's step;
(7) the rolling scanner coincides with the direct scanner instantiated with
the rolling window fingerprint. -/
theorem C7_hit_verification (hashFn : List Int → Nat) (doc query : List Int)
    (gs : Finset Nat) (θ : ℚ) (n i j : Nat) (js rest : List Nat) (r : RollingHash)
    (hit_d : hashFn (window doc i n) ∈ gs)
    (hit_r : r.get_hash ∈ gs)
    (hjs : ∀ x ∈ js, x + query.length ≤ doc.length)
    (hin : i + n ≤ doc.length)
    (htok : ∀ t ∈ doc, 0 ≤ t ∧ t < 2 ^ 31)
    (hn : 1 ≤ n) (hnq : n ≤ query.length) (hql : query.length ≤ doc.length) :
    ((inner_start i query.length n : Int) = max 0 ((i : Int) - query.length + n)) ∧
    (j ∈ innerOffsets i query.length n ↔ inner_start i query.length n ≤ j ∧ j ≤ i) ∧
    List.Pairwise (· < ·) (innerOffsets i query.length n) ∧
    verifyRange doc query θ js = some (js.any (passAt doc query θ)) ∧
    (outerLoopD hashFn doc query gs θ n (i :: rest) =
      match verifyRange doc query θ (innerOffsets i query.length n) with
      | some true => some true
      | some false => outerLoopD hashFn doc query gs θ n rest
      | none => none) ∧
    (rollLoop doc query gs θ n r (i :: rest) =
      match verifyRange doc query θ (innerOffsets i query.length n) with
      | some true => some true
      | some false =>
        if i + n < doc.length then
          rollLoop doc query gs θ n
            (r.slide (toU64 (doc.getD i 0)) (toU64 (doc.getD (i + n) 0))) rest
        else none
      | none => none) ∧
    has_doc_duplicate_rolling doc query gs θ n =
      has_doc_duplicate rollingWindowHash doc query gs θ n := by
  refine ⟨?_, mem_innerOffsets i query.length n j, ?_,
    verifyRange_eq_any doc query θ js hjs, ?_, ?_,
    has_doc_duplicate_rolling_eq doc query gs θ n htok hn hnq hql⟩
  · rw [inner_start]
    exact Int.toNat_of_nonneg (le_max_left 0 _)
  · exact List.pairwise_lt_range' _ _
  · simp only [outerLoopD]
    rw [if_pos hin, if_pos hit_d]
  · simp only [rollLoop]
    rw [if_pos hit_r]

/-- C7 witness: a concrete hit at position 4 of Scenario 1's document for
both scanners. -/
theorem C7_hit_verification_witness :
    ((inner_start 4 5 3 : Int) = max 0 ((4 : Int) - 5 + 3)) ∧
    has_doc_duplicate_rolling [1, 2, 3, 4, 5, 6, 7, 8, 9, 10] [1, 2, 3, 4, 5]
        {encodeHash (window [1, 2, 3, 4, 5, 6, 7, 8, 9, 10] 4 3),
          rollingWindowHash (window [1, 2, 3, 4, 5, 6, 7, 8, 9, 10] 4 3)} (4/5) 3 =
      has_doc_duplicate rollingWindowHash [1, 2, 3, 4, 5, 6, 7, 8, 9, 10] [1, 2, 3, 4, 5]
        {encodeHash (window [1, 2, 3, 4, 5, 6, 7, 8, 9, 10] 4 3),
          rollingWindowHash (window [1, 2, 3, 4, 5, 6, 7, 8, 9, 10] 4 3)} (4/5) 3 := by
  have h := C7_hit_verification encodeHash [1, 2, 3, 4, 5, 6, 7, 8, 9, 10] [1, 2, 3, 4, 5]
    {encodeHash (window [1, 2, 3, 4, 5, 6, 7, 8, 9, 10] 4 3),
      rollingWindowHash (window [1, 2, 3, 4, 5, 6, 7, 8, 9, 10] 4 3)} (4/5) 3 4 3 [2, 3, 4] []
    (primeAppends ((window [1, 2, 3, 4, 5, 6, 7, 8, 9, 10] 4 3).map toU64))
    (by decide) (by decide) (by decide) (by decide) (by decide) (by decide)
    (by decide) (by decide)
  exact ⟨h.1, h.2.2.2.2.2.2⟩

/-- C8 (code_bug evidence): fingerprinting a sequence shorter than the width
faults (`text.len() - n + 1` underflows) instead of returning the empty
fingerprint set: here `len(S) = 2 < n = 3`. -/
theorem C8_short_sequence_faults :
    (∀ hashFn : List Int → Nat, ngram hashFn [1, 2] 3 = none) ∧
    ngram_rolling [1, 2] 3 = none := by
  exact ⟨fun _ => rfl, rfl⟩

/-- C9: the weighted Jaccard similarity is symmetric and bounded in `[0,1]`. -/
theorem C9_jaccard_symmetric_bounded (a b : List Int) :
    weighted_jaccard a b = weighted_jaccard b a ∧
    0 ≤ weighted_jaccard a b ∧ weighted_jaccard a b ≤ 1 := by
  refine ⟨?_, ?_, ?_⟩
  · rw [weighted_jaccard_eq a b, weighted_jaccard_eq b a, interW_comm b a,
      Nat.add_comm b.length a.length]
  · rw [weighted_jaccard_eq]
    by_cases h : 0 < a.length + b.length - interW a b
    · rw [if_pos h]
      exact div_nonneg (Nat.cast_nonneg _) (Nat.cast_nonneg _)
    · rw [if_neg h]
  · rw [weighted_jaccard_eq]
    by_cases h : 0 < a.length + b.length - interW a b
    · rw [if_pos h]
      rw [div_le_one (by exact_mod_cast h)]
      have h1 := interW_le_left a b
      have h2 := interW_le_right a b
      exact_mod_cast (by omega : interW a b ≤ a.length + b.length - interW a b)
    · rw [if_neg h]
      norm_num

/-- C10: starting from `RollingHash::new()`, every finite sequence of
`append`/`slide` calls leaves `get_hash()` strictly below the modulus
`1,000,000,007` — each operation ends by reducing the hash mod the prime. -/
theorem C10_hash_stays_reduced (ops : List RollOp) :
    (ops.foldl applyRollOp RollingHash.new).get_hash < 1000000007 :=
  foldRollOps_hash_lt ops RollingHash.new rfl (by decide)

end ClaimEvaluations

end Neardup
